import Mathlib

/-!
Verification of the walrust repository-discovery and commit-extraction core.

The development shallowly embeds the Rust sources:
* `src/repository_locator.rs` — the bounded depth-first walk (`RepositoryLocator`),
  over the `Filesystem` capability of `src/filesystem.rs`;
* `src/commit.rs` — `CommitAuthor`, `CommitHash`, `Commit`;
* `src/repository.rs` — `LocalGitRepository::get_commits`, the date-window walk
  over the revision iterator supplied by the external VCS engine.

Paths are modelled as lists of components (`FsPath`); a filesystem is the pair of
capabilities `is_dir` / `read_dir` (`Fs`), with `read_dir` returning `none` where the
Rust call returns `Err`.  A Rust panic (an `unwrap` on `Err`, or an out-of-bounds
string slice) is modelled by an `Option.none` result of the embedded function, kept
distinct from a returned `Err`.  Machine timestamps are unbounded `Int` seconds;
`chrono`'s representable range is kept explicit in `fromTimestamp`.
-/

/-- Components of a filesystem path, mirroring `std::path::PathBuf` at the
granularity the locator uses (component-wise `ends_with` and push). -/
abbrev FsPath := List String

/-- Capability interface of `Filesystem` (src/filesystem.rs): `is_dir` is total,
`read_dir` returns `none` where the Rust trait returns `Err(io::Error)`. -/
structure Fs where
  isDir : FsPath → Bool
  readDir : FsPath → Option (List FsPath)

/-- Embedding of `entry_path.ends_with(".git")`: `Path::ends_with` with a
single-component needle holds exactly when the final component is `.git`. -/
def endsWithGit (p : FsPath) : Bool := p.getLast? == some ".git"

/-- Body of the `for entry in read_dir(path).unwrap()` loop of
`RepositoryLocator::locate_recursive` (src/repository_locator.rs:71-81), with the
recursive call at the next depth passed in as `recur`.  A `none` anywhere models a
panic propagating out of the walk. -/
def locateEntries (fs : Fs) (recur : FsPath → Option (List FsPath)) (path : FsPath) :
    List FsPath → Option (List FsPath)
  | [] => some []
  | e :: rest =>
    if fs.isDir e then
      if endsWithGit e then
        (locateEntries fs recur path rest).map (path :: ·)
      else
        match recur e, locateEntries fs recur path rest with
        | some sub, some tl => some (sub ++ tl)
        | _, _ => none
    else
      locateEntries fs recur path rest

/-- Embedding of `RepositoryLocator::locate_recursive` (src/repository_locator.rs:64-84).
Depth 0 returns empty before anything is probed; otherwise, if `path` is a directory,
its entries are read with `.unwrap()` — a read failure (`readDir = none`) is a panic,
modelled as `none`. -/
def locateRecursive (fs : Fs) : Nat → FsPath → Option (List FsPath)
  | 0, _ => some []
  | d + 1, path =>
    if fs.isDir path then
      match fs.readDir path with
      | none => none
      | some entries => locateEntries fs (locateRecursive fs d) path entries
    else
      some []

/-- Embedding of `RepositoryLocator::locate` (src/repository_locator.rs:51-53):
`self.locate_recursive(&self.root, self.depth + 1)`. -/
def locate (fs : Fs) (root : FsPath) (depth : Nat) : Option (List FsPath) :=
  locateRecursive fs (depth + 1) root

mutual
/-- Node of an in-memory directory tree, mirroring the `MockFsNode` test double
(src/repository_locator.rs:124-128): a directory holds named children, a file holds
nothing.  Sibling entries are an association list standing for the mock's `HashMap`. -/
inductive FsNode where
  | dir (children : FsEntries)
  | file

/-- Named children of a directory node. -/
inductive FsEntries where
  | nil
  | cons (name : String) (node : FsNode) (rest : FsEntries)
end

deriving instance DecidableEq for FsNode, FsEntries

/-- Lookup of a named child, mirroring `children.get(component)` of the mock. -/
def lookupChild : FsEntries → String → Option FsNode
  | .nil, _ => none
  | .cons n c rest, m => if n == m then some c else lookupChild rest m

/-- Names of the children of a directory node, mirroring `children.keys()`. -/
def entryNames : FsEntries → List String
  | .nil => []
  | .cons n _ rest => n :: entryNames rest

/-- Embedding of `MockFilesystem::find_node` (src/repository_locator.rs:228-238):
resolve a path component-wise from the tree root. -/
def findNode : FsNode → FsPath → Option FsNode
  | t, [] => some t
  | .dir ch, n :: rest =>
    match lookupChild ch n with
    | some c => findNode c rest
    | none => none
  | .file, _ :: _ => none

/-- Truth of `matches!(node, Directory(_))` on an optional node. -/
def isDirNode : Option FsNode → Bool
  | some (.dir _) => true
  | _ => false

/-- The `Filesystem` implementation backed by a tree, as in the
`MockFilesystem` impl (src/repository_locator.rs:241-263): `is_dir` resolves the
node, `read_dir` lists the children as `path/name`, erring on non-directories. -/
def fsOf (t : FsNode) : Fs where
  isDir p := isDirNode (findNode t p)
  readDir p :=
    match findNode t p with
    | some (.dir ch) => some ((entryNames ch).map (fun n => p ++ [n]))
    | _ => none

mutual
/-- Validity of a tree as a filesystem: sibling names are distinct at every
directory (a `HashMap` in the mock, an OS guarantee in production), so every
directory is reachable by exactly one path. -/
def wellFormed : FsNode → Bool
  | .file => true
  | .dir ch => (decide (entryNames ch).Nodup) && childrenWF ch

/-- Validity of every child node of a directory. -/
def childrenWF : FsEntries → Bool
  | .nil => true
  | .cons _ c rest => wellFormed c && childrenWF rest
end

/-- The repository list produced by `locate` over a tree-backed filesystem.  On a
tree the walk never panics (`locate_fsOf_eq_locateTree`), so the `getD` default
is never taken. -/
def locateTree (t : FsNode) (root : FsPath) (depth : Nat) : List FsPath :=
  (locate (fsOf t) root depth).getD []

/-- Truth of "`p` has a `.git` directory child" in the tree `t` — the probe that
makes `locate_recursive` record `p` as a repository root. -/
def hasGitChild (t : FsNode) (p : FsPath) : Bool := isDirNode (findNode t (p ++ [".git"]))

/-- Embedding of `CommitAuthor` (src/commit.rs:7-12). -/
structure CommitAuthor where
  name : String
  email : String
deriving DecidableEq

/-- Code points with the Unicode `White_Space` property, the set stripped by
Rust's `str::trim`. -/
def rustWhitespace : List Nat :=
  [0x09, 0x0A, 0x0B, 0x0C, 0x0D, 0x20, 0x85, 0xA0, 0x1680,
   0x2000, 0x2001, 0x2002, 0x2003, 0x2004, 0x2005, 0x2006, 0x2007, 0x2008, 0x2009,
   0x200A, 0x2028, 0x2029, 0x202F, 0x205F, 0x3000]

/-- Truth of `char::is_whitespace` for a character. -/
def isWsp (c : Char) : Bool := rustWhitespace.contains c.toNat

/-- Embedding of `str::trim`: drop whitespace from both ends. -/
def trimList (s : List Char) : List Char :=
  ((s.dropWhile isWsp).reverse.dropWhile isWsp).reverse

/-- Core of `CommitAuthor::to_string` (src/commit.rs:33-47) at character-list level:
wrap a non-empty email in angle brackets, keep a non-empty name, return empty when
both are empty, otherwise `format!("{} {}", name, email).trim()`. -/
def authorStringL (nameRaw emailRaw : List Char) : List Char :=
  let emailL : List Char := if emailRaw.isEmpty then [] else ('<' :: emailRaw) ++ ['>']
  let nameL : List Char := if nameRaw.isEmpty then [] else nameRaw
  match nameL.isEmpty, emailL.isEmpty with
  | true, true => []
  | _, _ => trimList (nameL ++ ' ' :: emailL)

/-- Embedding of `CommitAuthor::to_string` (src/commit.rs:33-47). -/
def commitAuthorToString (a : CommitAuthor) : String :=
  (authorStringL a.name.toList a.email.toList).asString

/-- Embedding of `CommitHash` (src/commit.rs:54-59). -/
structure CommitHash where
  short : String
  full : String
deriving DecidableEq

/-- Embedding of `CommitHash::new` (src/commit.rs:69-74): `short` is the slice
`full_hash[..7]`, which panics (`none`) when the input is shorter than 7; `full`
keeps the input unchanged. -/
def commitHashNew (fullHash : String) : Option CommitHash :=
  if fullHash.toList.length < 7 then none
  else some { short := (fullHash.toList.take 7).asString, full := fullHash }

/-- Embedding of `Commit` (src/commit.rs:83-94); `commit_date` is the UTC timestamp
in seconds (a `DateTime<Utc>` compares by its timestamp). -/
structure Commit where
  title : String
  author : CommitAuthor
  commitDate : Int
  message : String
  hash : CommitHash
deriving DecidableEq

/-- Data the external VCS engine yields for one walked revision (libgit2 revwalk
item): object id, author identity (each `None` when not valid UTF-8), summary and
message, and the author/commit timestamp as seconds plus a UTC offset in minutes
(`git2::Time::seconds` / `offset_minutes`). -/
structure EngineCommit where
  id : String
  authorName : Option String
  authorEmail : Option String
  summary : Option String
  message : Option String
  seconds : Int
  offsetMinutes : Int
deriving DecidableEq

/-- Smallest timestamp representable by `chrono` (`DateTime::<Utc>::MIN_UTC`). -/
def chronoMinTimestamp : Int := -8334601228800

/-- Largest timestamp representable by `chrono` (`DateTime::<Utc>::MAX_UTC`). -/
def chronoMaxTimestamp : Int := 8210266876799

/-- Embedding of `chrono::DateTime::from_timestamp(secs, 0)`: `none` outside the
representable range. -/
def fromTimestamp (secs : Int) : Option Int :=
  if chronoMinTimestamp ≤ secs ∧ secs ≤ chronoMaxTimestamp then some secs else none

/-- Outcomes of `LocalGitRepository::get_commits` other than `Ok`: a returned
`Err(WalrustError::GitError(..))`, or a panic inside the loop
(`CommitHash::new` slicing a short id). -/
inductive CommitsErr where
  | gitError
  | panicAbort
deriving DecidableEq

/-- Mirror of Rust's `Result`. -/
inductive RustResult (ε α : Type) where
  | ok (val : α)
  | err (e : ε)
deriving DecidableEq

/-- Construction of the `Commit` record pushed by the loop body
(src/repository.rs:160-172): hash from the id (may panic), author name/email with
`unwrap_or_default`, summary and message with `unwrap_or_default`. -/
def mkCommit (c : EngineCommit) (d : Int) : Option Commit :=
  (commitHashNew c.id).map fun h =>
    { title := c.summary.getD ""
      author := { name := c.authorName.getD "", email := c.authorEmail.getD "" }
      commitDate := d
      message := c.message.getD ""
      hash := h }

/-- Embedding of `LocalGitRepository::get_commits` (src/repository.rs:137-177).
The revwalk is the input list; an item `none` stands for a failing `oid?` or
`find_commit(..)?` and propagates as `Err`.  The date is
`from_timestamp(commit.time().seconds(), 0)` — the commit's UTC offset is **not**
added.  A commit strictly older than `since` breaks the loop; one no newer than
`until` is pushed. -/
def getCommits : List (Option EngineCommit) → Int → Int → RustResult CommitsErr (List Commit)
  | [], _, _ => .ok []
  | none :: _, _, _ => .err .gitError
  | some c :: rest, since, untl =>
    match fromTimestamp c.seconds with
    | none => .err .gitError
    | some d =>
      if d < since then .ok []
      else if d ≤ untl then
        match mkCommit c d with
        | none => .err .panicAbort
        | some cc =>
          match getCommits rest since untl with
          | .ok tl => .ok (cc :: tl)
          | .err e => .err e
      else getCommits rest since untl

/-- Reference variant for the refinement claim, following the specification's
words: the same walk **without** the early stop, keeping every commit of the
entire sequence whose date lies in the closed window `[since, until]`. -/
def getCommitsFullScan :
    List (Option EngineCommit) → Int → Int → RustResult CommitsErr (List Commit)
  | [], _, _ => .ok []
  | none :: _, _, _ => .err .gitError
  | some c :: rest, since, untl =>
    match fromTimestamp c.seconds with
    | none => .err .gitError
    | some d =>
      if since ≤ d ∧ d ≤ untl then
        match mkCommit c d with
        | none => .err .panicAbort
        | some cc =>
          match getCommitsFullScan rest since untl with
          | .ok tl => .ok (cc :: tl)
          | .err e => .err e
      else getCommitsFullScan rest since untl

/-- Truth of `since <= commit_date <= until` for the date the code computes. -/
def inWindow (since untl : Int) (c : EngineCommit) : Bool :=
  since ≤ c.seconds && c.seconds ≤ untl

/-- Validity of one engine commit for a clean walk: the id survives the 7-byte
slice and the timestamp is representable. -/
def validEngineCommit (c : EngineCommit) : Bool :=
  7 ≤ c.id.toList.length && (chronoMinTimestamp ≤ c.seconds && c.seconds ≤ chronoMaxTimestamp)

/-- Truth of "no leading and no trailing whitespace" for a character list. -/
def noEdgeWsp (l : List Char) : Bool :=
  l.head?.all (fun c => !isWsp c) && l.getLast?.all (fun c => !isWsp c)

/-- Tree of `create_mock_directory_tree` (src/repository_locator.rs:151-210):
repositories at nesting levels 1 through 4 plus a non-repository directory. -/
def mockTree : FsNode :=
  .dir (.cons "root"
    (.dir
      (.cons "nested_1" (.dir (.cons ".git" (.dir .nil) .nil))
      (.cons "not_a_repo" (.dir (.cons "file.txt" .file .nil))
      (.cons "depth_2" (.dir (.cons "nested_2" (.dir (.cons ".git" (.dir .nil) .nil)) .nil))
      (.cons "depth_3" (.dir (.cons "depth_3"
        (.dir (.cons "nested_3" (.dir (.cons ".git" (.dir .nil) .nil)) .nil)) .nil))
      (.cons "depth_4" (.dir (.cons "depth_4" (.dir (.cons "depth_4"
        (.dir (.cons "nested_4" (.dir (.cons ".git" (.dir .nil) .nil)) .nil)) .nil)) .nil))
      .nil))))))
    .nil)

/-- Tree with a `.git` directory directly under the search root `root`. -/
def c1tree : FsNode := .dir (.cons "root" (.dir (.cons ".git" (.dir .nil) .nil)) .nil)

/-- Filesystem whose root has two subdirectories: `bad`, on which `read_dir`
fails, and `ok`, which is a repository. -/
def c2bad : Fs where
  isDir p :=
    p == ["root"] || p == ["root", "bad"] || p == ["root", "ok"] || p == ["root", "ok", ".git"]
  readDir p :=
    if p == ["root"] then some [["root", "bad"], ["root", "ok"]]
    else if p == ["root", "ok"] then some [["root", "ok", ".git"]]
    else if p == ["root", "ok", ".git"] then some []
    else none

/-- Identical filesystem except that `bad` reads back as empty instead of
failing: the control case showing `ok` is discoverable. -/
def c2good : Fs where
  isDir := c2bad.isDir
  readDir p := if p == ["root", "bad"] then some [] else c2bad.readDir p

/-- Engine commit whose author timestamp (seconds, UTC) is 1000 with a +120
minute offset: offset-adjusted time 8200. -/
def offsetCommit : EngineCommit :=
  { id := "aaaaaaaaaa", authorName := some "A", authorEmail := some "a@x"
    summary := some "t", message := some "m", seconds := 1000, offsetMinutes := 120 }

/-- Two engine commits walked newest-first: seconds 100 then 50. -/
def sampleCommits : List EngineCommit :=
  [{ id := "abcdef1234", authorName := some "A", authorEmail := some "a@x"
     summary := some "second", message := some "second body", seconds := 100
     offsetMinutes := 0 },
   { id := "1234567890", authorName := some "B", authorEmail := some "b@x"
     summary := some "first", message := some "first body", seconds := 50
     offsetMinutes := 0 }]

/-- Search root named `.git` that itself contains a `.git` child and a nested
repository `sub`. -/
def c8tree : FsNode :=
  .dir (.cons ".git"
    (.dir (.cons ".git" (.dir .nil)
          (.cons "sub" (.dir (.cons ".git" (.dir .nil) .nil)) .nil)))
    .nil)

/-- Claim C1 (counterexample): `locate` with search depth 0 is **not** empty on
every tree — on a root that directly contains a `.git` directory it returns the
root, because `locate` calls `locate_recursive(root, depth + 1)` and so probes the
root's children even at depth 0. -/
theorem locate_depth_zero_not_always_empty :
    locate (fsOf c1tree) ["root"] 0 = some [["root"]] ∧
    locate (fsOf c1tree) ["root"] 0 ≠ some [] := by decide

/-- Claim C2 (code evaluated at the failing input): when `read_dir` fails on the
subdirectory `bad`, the walk panics (`none`) instead of returning the sibling
repository `ok`; with the same tree readable, `ok` is returned, so the abort is
caused by the error alone. -/
theorem locate_aborts_on_read_dir_error :
    locate c2bad ["root"] 5 = none ∧
    locate c2good ["root"] 5 = some [["root", "ok"]] := by decide

/-- Claim C3 (code evaluated at the failing input): `CommitHash::new` on a string
shorter than 7 panics on the slice `full_hash[..7]` (modelled `none`) rather than
returning a defined error, while on length ≥ 7 it yields the first 7 characters
as `short` and keeps `full` unchanged. -/
theorem commitHashNew_short_input_panics :
    commitHashNew "abc" = none ∧
    commitHashNew "abcdefgh" = some { short := "abcdefg", full := "abcdefgh" } := by decide

/-- Claim C4 (code evaluated at the failing input): `get_commits` compares
`from_timestamp(time().seconds(), 0)` — never adding `offset_minutes` — so a
commit whose offset-adjusted time (8200) lies inside `[2000, 1000000]` is
excluded and even stops the walk, because its raw seconds (1000) fall below
`since`. -/
theorem getCommits_ignores_utc_offset :
    getCommits [some offsetCommit] 2000 1000000 = .ok [] ∧
    2000 ≤ offsetCommit.seconds + 60 * offsetCommit.offsetMinutes ∧
    offsetCommit.seconds + 60 * offsetCommit.offsetMinutes ≤ 1000000 := by decide

/-- Claim C8 (counterexample): with the search root itself named `.git` and
containing both a `.git` child and a sibling subdirectory `sub` that is a
repository, `locate` returns the root (whose final segment **is** `.git`) and
also the nested repository below it — the walk recursed past the matched root. -/
theorem locate_nested_repo_reported :
    locate (fsOf c8tree) [".git"] 1 = some [[".git"], [".git", "sub"]] ∧
    [".git"] ∈ locateTree c8tree [".git"] 1 ∧
    [".git", "sub"] ∈ locateTree c8tree [".git"] 1 := by decide

/-- Claim C9 (counterexample): on `{name: " A", email: ""}` the code yields
`"A"`, not the name `" A"`, because the formatted string is passed through
`str::trim`. -/
theorem commitAuthorToString_trims_name :
    commitAuthorToString { name := " A", email := "" } = "A" ∧
    commitAuthorToString { name := " A", email := "" } ≠ " A" := by decide

/-- Unfolding of `locate_recursive` at positive depth. -/
theorem locateRecursive_succ (fs : Fs) (d : Nat) (p : FsPath) :
    locateRecursive fs (d + 1) p =
      if fs.isDir p then
        match fs.readDir p with
        | none => none
        | some entries => locateEntries fs (locateRecursive fs d) p entries
      else some [] := rfl

/-- With no depth left for subdirectories, the entry loop keeps one copy of the
parent per `.git` directory entry. -/
theorem locateEntries_depth_zero (fs : Fs) (p : FsPath) (es : List FsPath) :
    locateEntries fs (locateRecursive fs 0) p es =
      some ((es.filter (fun e => fs.isDir e && endsWithGit e)).map (fun _ => p)) := by
  induction es with
  | nil => rfl
  | cons e rest ih =>
    cases hd : fs.isDir e with
    | false => simp [locateEntries, hd, ih, List.filter_cons]
    | true =>
      cases hg : endsWithGit e with
      | true => simp [locateEntries, hd, hg, ih, List.filter_cons]
      | false =>
        have h0 : locateRecursive fs 0 e = some [] := rfl
        simp [locateEntries, hd, hg, h0, ih, List.filter_cons]

/-- Claim C1 (amended): `locate_recursive` does return empty at depth 0, but
`locate` invokes it with `search_depth + 1`, so at search depth 0 the root's
children are still probed: the result is one copy of the root per `.git`
directory child of the root (empty exactly when there is none), and empty when
the root is not a directory. -/
theorem locate_depth_zero_characterization (fs : Fs) (root : FsPath) :
    (fs.isDir root = false → locate fs root 0 = some []) ∧
    (∀ es, fs.isDir root = true → fs.readDir root = some es →
      locate fs root 0 =
        some ((es.filter (fun e => fs.isDir e && endsWithGit e)).map (fun _ => root))) := by
  constructor
  · intro h
    show locateRecursive fs (0 + 1) root = some []
    rw [locateRecursive_succ, h]
    simp
  · intro es hdir hrd
    show locateRecursive fs (0 + 1) root = _
    rw [locateRecursive_succ, hdir, hrd]
    simp [locateEntries_depth_zero]

/-- Witness for C1 (amended) on the tree whose root holds a `.git` child. -/
theorem locate_depth_zero_characterization_witness :
    locate (fsOf c1tree) ["root"] 0 =
      some ((([["root", ".git"]] : List FsPath).filter
        (fun e => (fsOf c1tree).isDir e && endsWithGit e)).map (fun _ => ["root"])) :=
  (locate_depth_zero_characterization (fsOf c1tree) ["root"]).2 [["root", ".git"]]
    (by decide) (by decide)

/-- Monotonicity of the entry loop in the recursion passed for subdirectories. -/
theorem locateEntries_mono (fs : Fs) (p : FsPath) (r1 r2 : FsPath → Option (List FsPath))
    (hrec : ∀ q l l', r1 q = some l → r2 q = some l' → l ⊆ l') (es : List FsPath) :
    ∀ l l', locateEntries fs r1 p es = some l → locateEntries fs r2 p es = some l' → l ⊆ l' := by
  induction es with
  | nil =>
    intro l l' h1 h2
    simp only [locateEntries] at h1 h2
    cases h1; cases h2
    exact fun _ hx => hx
  | cons e rest ih =>
    intro l l' h1 h2
    cases hd : fs.isDir e with
    | false =>
      rw [locateEntries, hd] at h1 h2
      simp only [Bool.false_eq_true, if_false] at h1 h2
      exact ih l l' h1 h2
    | true =>
      cases hg : endsWithGit e with
      | true =>
        rw [locateEntries, hd, hg] at h1 h2
        simp only [if_pos] at h1 h2
        cases hr1 : locateEntries fs r1 p rest with
        | none => rw [hr1] at h1; cases h1
        | some tl =>
          cases hr2 : locateEntries fs r2 p rest with
          | none => rw [hr2] at h2; cases h2
          | some tl' =>
            rw [hr1] at h1; rw [hr2] at h2
            cases h1; cases h2
            exact List.cons_subset_cons p (ih tl tl' hr1 hr2)
      | false =>
        rw [locateEntries, hd, hg] at h1 h2
        simp only [if_pos] at h1 h2
        cases hs1 : r1 e with
        | none => rw [hs1] at h1; cases h1
        | some sub =>
          cases ht1 : locateEntries fs r1 p rest with
          | none => rw [hs1, ht1] at h1; cases h1
          | some tl =>
            cases hs2 : r2 e with
            | none => rw [hs2] at h2; cases h2
            | some sub' =>
              cases ht2 : locateEntries fs r2 p rest with
              | none => rw [hs2, ht2] at h2; cases h2
              | some tl' =>
                rw [hs1, ht1] at h1; rw [hs2, ht2] at h2
                cases h1; cases h2
                apply List.append_subset.mpr
                constructor
                · exact (hrec e sub sub' hs1 hs2).trans (List.subset_append_left sub' tl')
                · exact (ih tl tl' ht1 ht2).trans (List.subset_append_right sub' tl')

/-- Everything found with a given depth budget is found with one more level. -/
theorem locateRecursive_mono (fs : Fs) :
    ∀ d p l l', locateRecursive fs d p = some l → locateRecursive fs (d + 1) p = some l' →
      l ⊆ l' := by
  intro d
  induction d with
  | zero =>
    intro p l l' h1 _
    cases h1
    exact List.nil_subset l'
  | succ d ih =>
    intro p l l' h1 h2
    rw [locateRecursive_succ] at h1 h2
    cases hdir : fs.isDir p with
    | false =>
      rw [hdir] at h1 h2
      simp only [Bool.false_eq_true, if_false] at h1 h2
      cases h1; cases h2
      exact fun _ hx => hx
    | true =>
      rw [hdir] at h1 h2
      simp only [if_pos] at h1 h2
      cases hrd : fs.readDir p with
      | none => rw [hrd] at h1; cases h1
      | some es =>
        rw [hrd] at h1 h2
        exact locateEntries_mono fs p _ _ ih es l l' h1 h2

/-- The entry loop succeeds when every subdirectory recursion does. -/
theorem locateEntries_isSome (fs : Fs) (recur : FsPath → Option (List FsPath)) (p : FsPath)
    (hrec : ∀ q, (recur q).isSome = true) (es : List FsPath) :
    (locateEntries fs recur p es).isSome = true := by
  induction es with
  | nil => rfl
  | cons e rest ih =>
    cases hd : fs.isDir e with
    | false => rw [locateEntries, hd]; simpa using ih
    | true =>
      cases hg : endsWithGit e with
      | true =>
        rw [locateEntries, hd, hg]
        simp only [if_pos]
        cases ht : locateEntries fs recur p rest with
        | none => rw [ht] at ih; cases ih
        | some tl => simp
      | false =>
        rw [locateEntries, hd, hg]
        simp only [if_pos]
        cases hs : recur e with
        | none => have := hrec e; rw [hs] at this; cases this
        | some sub =>
          cases ht : locateEntries fs recur p rest with
          | none => rw [ht] at ih; cases ih
          | some tl => simp

/-- The walk panics on no input whose filesystem can list every directory. -/
theorem locateRecursive_isSome (fs : Fs)
    (h : ∀ q, fs.isDir q = true → (fs.readDir q).isSome = true) :
    ∀ d p, (locateRecursive fs d p).isSome = true := by
  intro d
  induction d with
  | zero => intro p; rfl
  | succ d ih =>
    intro p
    rw [locateRecursive_succ]
    cases hdir : fs.isDir p with
    | false => simp
    | true =>
      simp only [if_pos]
      cases hrd : fs.readDir p with
      | none => have := h p hdir; rw [hrd] at this; cases this
      | some es => exact locateEntries_isSome fs _ p ih es

/-- Tree-backed filesystems list every directory. -/
theorem fsOf_readDir_isSome (t : FsNode) :
    ∀ q, (fsOf t).isDir q = true → ((fsOf t).readDir q).isSome = true := by
  intro q h
  show (match findNode t q with
    | some (.dir ch) => some ((entryNames ch).map (fun n => q ++ [n]))
    | _ => none).isSome = true
  cases hf : findNode t q with
  | none => rw [fsOf] at h; simp only at h; rw [hf] at h; cases h
  | some node =>
    cases node with
    | dir ch => simp
    | file => rw [fsOf] at h; simp only at h; rw [hf] at h; cases h

/-- On a tree, `locate` always returns a list (never panics), and `locateTree`
is that list. -/
theorem locate_fsOf_eq_locateTree (t : FsNode) (root : FsPath) (d : Nat) :
    locate (fsOf t) root d = some (locateTree t root d) := by
  have h := locateRecursive_isSome (fsOf t) (fsOf_readDir_isSome t) (d + 1) root
  cases hr : locate (fsOf t) root d with
  | none => rw [locate] at hr; rw [hr] at h; cases h
  | some l => rw [locateTree, hr]; rfl

/-- Claim C7: on every tree-backed filesystem the set of repositories found at
depth `k` is contained in the set found at depth `k + 1` — discovery is monotone
in the depth bound. -/
theorem locate_monotone_in_depth (t : FsNode) (root : FsPath) (k : Nat) (x : FsPath)
    (hx : x ∈ locateTree t root k) : x ∈ locateTree t root (k + 1) := by
  have h1 := locate_fsOf_eq_locateTree t root k
  have h2 := locate_fsOf_eq_locateTree t root (k + 1)
  rw [locate] at h1 h2
  exact locateRecursive_mono (fsOf t) (k + 1) root _ _ h1 h2 hx

/-- Witness for C7 on the mock tree: the depth-1 repository is also found at
depth 2. -/
theorem locate_monotone_in_depth_witness :
    ["root", "nested_1"] ∈ locateTree mockTree ["root"] 1 ∧
    ["root", "nested_1"] ∈ locateTree mockTree ["root"] 2 :=
  ⟨by decide, locate_monotone_in_depth mockTree ["root"] 1 ["root", "nested_1"] (by decide)⟩

/-- Entries produced by a tree-backed `read_dir` extend the directory path by one
component. -/
theorem fsOf_shape (t : FsNode) :
    ∀ q es, (fsOf t).readDir q = some es → ∀ e ∈ es, ∃ n, e = q ++ [n] := by
  intro q es h e he
  revert h
  show (match findNode t q with
    | some (.dir ch) => some ((entryNames ch).map (fun n => q ++ [n]))
    | _ => none) = some es → _
  cases hf : findNode t q with
  | none => intro h; cases h
  | some node =>
    cases node with
    | file => intro h; cases h
    | dir ch =>
      intro h
      cases h
      obtain ⟨n, _, hn⟩ := List.mem_map.mp he
      exact ⟨n, hn.symm⟩

/-- Soundness of the entry loop: every recorded path is the parent itself — with
a `.git` directory child — or comes from a recursion whose results already
satisfy the invariant. -/
theorem locateEntries_sound (fs : Fs) (recur : FsPath → Option (List FsPath)) (p : FsPath)
    (hrec : ∀ q l, recur q = some l →
      ∀ x ∈ l, (x = q ∨ x.getLast? ≠ some ".git") ∧ fs.isDir (x ++ [".git"]) = true)
    (es : List FsPath) (hsh : ∀ e ∈ es, ∃ n, e = p ++ [n]) :
    ∀ l, locateEntries fs recur p es = some l →
      ∀ x ∈ l, (x = p ∨ x.getLast? ≠ some ".git") ∧ fs.isDir (x ++ [".git"]) = true := by
  induction es with
  | nil =>
    intro l h
    cases h
    intro x hx
    cases hx
  | cons e rest ih =>
    have ihr := ih (fun e' he' => hsh e' (List.mem_cons_of_mem e he'))
    intro l h x hx
    cases hd : fs.isDir e with
    | false =>
      rw [locateEntries, hd] at h
      simp only [Bool.false_eq_true, if_false] at h
      exact ihr l h x hx
    | true =>
      cases hg : endsWithGit e with
      | true =>
        rw [locateEntries, hd, hg] at h
        simp only [if_pos] at h
        cases hr : locateEntries fs recur p rest with
        | none => rw [hr] at h; cases h
        | some tl =>
          rw [hr] at h
          cases h
          obtain ⟨n, hn⟩ := hsh e (List.mem_cons_self e rest)
          have hng : n = ".git" := by
            have hb : ((p ++ [n]).getLast? == some ".git") = true := by rw [← hn]; exact hg
            have h7 := beq_iff_eq.mp hb
            rw [List.getLast?_concat] at h7
            exact Option.some.inj h7
          rcases List.mem_cons.mp hx with hxp | hxtl
          · subst hxp
            refine ⟨Or.inl rfl, ?_⟩
            rw [← hng, ← hn]
            exact hd
          · exact ihr tl hr x hxtl
      | false =>
        rw [locateEntries, hd, hg] at h
        simp only [if_pos] at h
        cases hs : recur e with
        | none => rw [hs] at h; cases h
        | some sub =>
          cases ht : locateEntries fs recur p rest with
          | none => rw [hs, ht] at h; cases h
          | some tl =>
            rw [hs, ht] at h
            cases h
            rcases List.mem_append.mp hx with hxs | hxtl
            · have hx1 := hrec e sub hs x hxs
              refine ⟨?_, hx1.2⟩
              rcases hx1.1 with hxe | hlast
              · subst hxe
                right
                intro hcon
                have : endsWithGit x = true := by
                  rw [endsWithGit, hcon]
                  rfl
                rw [this] at hg
                cases hg
              · exact Or.inr hlast
            · exact ihr tl ht x hxtl

/-- Soundness of the walk: every recorded path has a `.git` directory child, and
only the search root itself can end in `.git`. -/
theorem locateRecursive_sound (fs : Fs)
    (hshape : ∀ q es, fs.readDir q = some es → ∀ e ∈ es, ∃ n, e = q ++ [n]) :
    ∀ d p l, locateRecursive fs d p = some l →
      ∀ x ∈ l, (x = p ∨ x.getLast? ≠ some ".git") ∧ fs.isDir (x ++ [".git"]) = true := by
  intro d
  induction d with
  | zero =>
    intro p l h x hx
    cases h
    cases hx
  | succ d ih =>
    intro p l h x hx
    rw [locateRecursive_succ] at h
    cases hdir : fs.isDir p with
    | false =>
      rw [hdir] at h
      simp only [Bool.false_eq_true, if_false] at h
      cases h
      cases hx
    | true =>
      rw [hdir] at h
      simp only [if_pos] at h
      cases hrd : fs.readDir p with
      | none => rw [hrd] at h; cases h
      | some es =>
        rw [hrd] at h
        exact locateEntries_sound fs _ p ih es (hshape p es hrd) l h x hx

/-- Claim C8 (amended): when a `.git` directory child is found, the parent is
recorded: every path returned over a tree has a `.git` directory child, and no
returned path other than the search root itself has `.git` as its final segment.
(The walk does, however, continue into the other subdirectories of a matched
directory, so nested repositories below a matched root are reported — see the
counterexample.) -/
theorem locate_parent_recorded (t : FsNode) (root : FsPath) (d : Nat) (x : FsPath)
    (hx : x ∈ locateTree t root d) :
    (x = root ∨ x.getLast? ≠ some ".git") ∧ hasGitChild t x = true := by
  have h := locate_fsOf_eq_locateTree t root d
  rw [locate] at h
  exact locateRecursive_sound (fsOf t) (fsOf_shape t) (d + 1) root _ h x hx

/-- Witness for C8 (amended) on the mock tree at depth 1. -/
theorem locate_parent_recorded_witness :
    ((["root", "nested_1"] : FsPath) = ["root"] ∨
      (["root", "nested_1"] : FsPath).getLast? ≠ some ".git") ∧
    hasGitChild mockTree ["root", "nested_1"] = true :=
  locate_parent_recorded mockTree ["root"] 1 ["root", "nested_1"] (by decide)

/-- Helper: a list equal to itself with a suffix appended has an empty suffix. -/
theorem append_eq_self_nil {α : Type} (p s : List α) (h : p = p ++ s) : s = [] := by
  have h2 : p ++ [] = p ++ s := by rw [List.append_nil]; exact h
  exact (List.append_cancel_left h2).symm

/-- Results of the entry loop extend the visited directory's path. -/
theorem locateEntries_under (fs : Fs) (recur : FsPath → Option (List FsPath)) (p : FsPath)
    (hrec : ∀ q l, recur q = some l → ∀ x ∈ l, ∃ r, x = q ++ r) (es : List FsPath)
    (hsh : ∀ e ∈ es, ∃ n, e = p ++ [n]) :
    ∀ l, locateEntries fs recur p es = some l → ∀ x ∈ l, ∃ r, x = p ++ r := by
  induction es with
  | nil =>
    intro l h x hx
    cases h
    cases hx
  | cons e rest ih =>
    have ihr := ih (fun e' he' => hsh e' (List.mem_cons_of_mem e he'))
    intro l h x hx
    cases hd : fs.isDir e with
    | false =>
      rw [locateEntries, hd] at h
      simp only [Bool.false_eq_true, if_false] at h
      exact ihr l h x hx
    | true =>
      cases hg : endsWithGit e with
      | true =>
        rw [locateEntries, hd, hg] at h
        simp only [if_pos] at h
        cases hr : locateEntries fs recur p rest with
        | none => rw [hr] at h; cases h
        | some tl =>
          rw [hr] at h
          cases h
          rcases List.mem_cons.mp hx with hxp | hxtl
          · exact ⟨[], by rw [hxp, List.append_nil]⟩
          · exact ihr tl hr x hxtl
      | false =>
        rw [locateEntries, hd, hg] at h
        simp only [if_pos] at h
        cases hs : recur e with
        | none => rw [hs] at h; cases h
        | some sub =>
          cases ht : locateEntries fs recur p rest with
          | none => rw [hs, ht] at h; cases h
          | some tl =>
            rw [hs, ht] at h
            cases h
            rcases List.mem_append.mp hx with hxs | hxtl
            · obtain ⟨r, hr⟩ := hrec e sub hs x hxs
              obtain ⟨n, hn⟩ := hsh e (List.mem_cons_self e rest)
              exact ⟨n :: r, by rw [hr, hn, List.append_assoc]; rfl⟩
            · exact ihr tl ht x hxtl

/-- Results of the walk extend the visited directory's path. -/
theorem locateRecursive_under (fs : Fs)
    (hshape : ∀ q es, fs.readDir q = some es → ∀ e ∈ es, ∃ n, e = q ++ [n]) :
    ∀ d p l, locateRecursive fs d p = some l → ∀ x ∈ l, ∃ r, x = p ++ r := by
  intro d
  induction d with
  | zero =>
    intro p l h x hx
    cases h
    cases hx
  | succ d ih =>
    intro p l h x hx
    rw [locateRecursive_succ] at h
    cases hdir : fs.isDir p with
    | false =>
      rw [hdir] at h
      simp only [Bool.false_eq_true, if_false] at h
      cases h
      cases hx
    | true =>
      rw [hdir] at h
      simp only [if_pos] at h
      cases hrd : fs.readDir p with
      | none => rw [hrd] at h; cases h
      | some es =>
        rw [hrd] at h
        exact locateEntries_under fs _ p ih es (hshape p es hrd) l h x hx

/-- Entry loop results are duplicate-free when the listed entries are, and each
result is either the parent (recorded for a `.git` entry) or lies under a
non-`.git` entry. -/
theorem locateEntries_nodup (fs : Fs) (recur : FsPath → Option (List FsPath)) (p : FsPath)
    (hrecU : ∀ q l, recur q = some l → ∀ x ∈ l, ∃ r, x = q ++ r)
    (hrecN : ∀ q l, recur q = some l → l.Nodup) (es : List FsPath)
    (hsh : ∀ e ∈ es, ∃ n, e = p ++ [n]) (hnd : es.Nodup) :
    ∀ l, locateEntries fs recur p es = some l →
      l.Nodup ∧ ∀ x ∈ l,
        (x = p ∧ ∃ e ∈ es, fs.isDir e = true ∧ endsWithGit e = true) ∨
        (∃ e ∈ es, fs.isDir e = true ∧ endsWithGit e = false ∧ ∃ r, x = e ++ r) := by
  induction es with
  | nil =>
    intro l h
    cases h
    exact ⟨List.nodup_nil, fun x hx => absurd hx (List.not_mem_nil x)⟩
  | cons e rest ih =>
    have hshr : ∀ e' ∈ rest, ∃ n, e' = p ++ [n] :=
      fun e' he' => hsh e' (List.mem_cons_of_mem e he')
    have hndr : rest.Nodup := (List.nodup_cons.mp hnd).2
    have henr : e ∉ rest := (List.nodup_cons.mp hnd).1
    have ihr := ih hshr hndr
    intro l h
    obtain ⟨n, hn⟩ := hsh e (List.mem_cons_self e rest)
    cases hd : fs.isDir e with
    | false =>
      rw [locateEntries, hd] at h
      simp only [Bool.false_eq_true, if_false] at h
      obtain ⟨h1, h2⟩ := ihr l h
      refine ⟨h1, fun x hx => ?_⟩
      rcases h2 x hx with ⟨hxp, e', he', hrest⟩ | ⟨e', he', hrest⟩
      · exact Or.inl ⟨hxp, e', List.mem_cons_of_mem e he', hrest⟩
      · exact Or.inr ⟨e', List.mem_cons_of_mem e he', hrest⟩
    | true =>
      cases hg : endsWithGit e with
      | true =>
        have hng : n = ".git" := by
          have hb : ((p ++ [n]).getLast? == some ".git") = true := by rw [← hn]; exact hg
          have h7 := beq_iff_eq.mp hb
          rw [List.getLast?_concat] at h7
          exact Option.some.inj h7
        rw [locateEntries, hd, hg] at h
        simp only [if_pos] at h
        cases hr : locateEntries fs recur p rest with
        | none => rw [hr] at h; cases h
        | some tl =>
          rw [hr] at h
          cases h
          obtain ⟨h1, h2⟩ := ihr tl hr
          have hpnotin : p ∉ tl := by
            intro hmem
            rcases h2 p hmem with ⟨_, e', he', _, hg'⟩ | ⟨e', he', _, hg', r, hr'⟩
            · obtain ⟨n', hn'⟩ := hshr e' he'
              have hng' : n' = ".git" := by
                have hb : ((p ++ [n']).getLast? == some ".git") = true := by
                  rw [← hn']; exact hg'
                have h7 := beq_iff_eq.mp hb
                rw [List.getLast?_concat] at h7
                exact Option.some.inj h7
              have : e = e' := by rw [hn, hn', hng, hng']
              rw [this] at henr
              exact henr he'
            · obtain ⟨n', hn'⟩ := hshr e' he'
              rw [hn', List.append_assoc] at hr'
              have := append_eq_self_nil p ([n'] ++ r) hr'
              cases this
          refine ⟨List.nodup_cons.mpr ⟨hpnotin, h1⟩, fun x hx => ?_⟩
          rcases List.mem_cons.mp hx with hxp | hxtl
          · exact Or.inl ⟨hxp, e, List.mem_cons_self e rest, hd, hg⟩
          · rcases h2 x hxtl with ⟨hxp, e', he', hrest⟩ | ⟨e', he', hrest⟩
            · exact Or.inl ⟨hxp, e', List.mem_cons_of_mem e he', hrest⟩
            · exact Or.inr ⟨e', List.mem_cons_of_mem e he', hrest⟩
      | false =>
        rw [locateEntries, hd, hg] at h
        simp only [if_pos] at h
        cases hs : recur e with
        | none => rw [hs] at h; cases h
        | some sub =>
          cases ht : locateEntries fs recur p rest with
          | none => rw [hs, ht] at h; cases h
          | some tl =>
            rw [hs, ht] at h
            cases h
            obtain ⟨h1, h2⟩ := ihr tl ht
            have hsubN : sub.Nodup := hrecN e sub hs
            have hdisj : ∀ a ∈ sub, a ∉ tl := by
              intro a ha hmem
              obtain ⟨r, hra⟩ := hrecU e sub hs a ha
              rcases h2 a hmem with ⟨hap, _⟩ | ⟨e', he', _, _, r', hr'⟩
              · rw [hap, hn, List.append_assoc] at hra
                have := append_eq_self_nil p ([n] ++ r) hra
                cases this
              · obtain ⟨n', hn'⟩ := hshr e' he'
                rw [hra, hn, List.append_assoc] at hr'
                rw [hn', List.append_assoc] at hr'
                have hcancel := List.append_cancel_left hr'
                have hnn : n = n' := by
                  have := List.head_eq_of_cons_eq hcancel
                  exact this
                have : e = e' := by rw [hn, hn', hnn]
                rw [this] at henr
                exact henr he'
            refine ⟨List.Nodup.append hsubN h1 hdisj, fun x hx => ?_⟩
            rcases List.mem_append.mp hx with hxs | hxtl
            · exact Or.inr ⟨e, List.mem_cons_self e rest, hd, hg, hrecU e sub hs x hxs⟩
            · rcases h2 x hxtl with ⟨hxp, e', he', hrest⟩ | ⟨e', he', hrest⟩
              · exact Or.inl ⟨hxp, e', List.mem_cons_of_mem e he', hrest⟩
              · exact Or.inr ⟨e', List.mem_cons_of_mem e he', hrest⟩

/-- The walk never records the same path twice when every directory listing is
duplicate-free and entries extend their directory. -/
theorem locateRecursive_nodup (fs : Fs)
    (hshape : ∀ q es, fs.readDir q = some es → ∀ e ∈ es, ∃ n, e = q ++ [n])
    (hndrd : ∀ q es, fs.readDir q = some es → es.Nodup) :
    ∀ d p l, locateRecursive fs d p = some l → l.Nodup := by
  intro d
  induction d with
  | zero =>
    intro p l h
    cases h
    exact List.nodup_nil
  | succ d ih =>
    intro p l h
    rw [locateRecursive_succ] at h
    cases hdir : fs.isDir p with
    | false =>
      rw [hdir] at h
      simp only [Bool.false_eq_true, if_false] at h
      cases h
      exact List.nodup_nil
    | true =>
      rw [hdir] at h
      simp only [if_pos] at h
      cases hrd : fs.readDir p with
      | none => rw [hrd] at h; cases h
      | some es =>
        rw [hrd] at h
        exact (locateEntries_nodup fs _ p (locateRecursive_under fs hshape d) ih es
          (hshape p es hrd) (hndrd p es hrd) l h).1

/-- Well-formedness is preserved by child lookup. -/
theorem lookupChild_wf : ∀ (ch : FsEntries) (n : String) (c : FsNode),
    childrenWF ch = true → lookupChild ch n = some c → wellFormed c = true
  | .nil, n, c => by intro _ h; cases h
  | .cons m c' rest, n, c => by
    intro hwf hlk
    rw [childrenWF] at hwf
    obtain ⟨h1, h2⟩ := Bool.and_eq_true_iff.mp hwf
    rw [lookupChild] at hlk
    by_cases hm : (m == n) = true
    · rw [if_pos hm] at hlk
      cases hlk
      exact h1
    · rw [if_neg hm] at hlk
      exact lookupChild_wf rest n c h2 hlk

/-- Well-formedness is preserved by path resolution. -/
theorem findNode_wf (t : FsNode) (q : FsPath) (node : FsNode)
    (hwf : wellFormed t = true) (hf : findNode t q = some node) : wellFormed node = true := by
  induction q generalizing t with
  | nil =>
    simp only [findNode] at hf
    cases hf
    exact hwf
  | cons n rest ih =>
    cases t with
    | file => cases hf
    | dir ch =>
      rw [findNode] at hf
      cases hlk : lookupChild ch n with
      | none => rw [hlk] at hf; cases hf
      | some c =>
        rw [hlk] at hf
        rw [wellFormed] at hwf
        obtain ⟨_, h2⟩ := Bool.and_eq_true_iff.mp hwf
        exact ih c (lookupChild_wf ch n c h2 hlk) hf

/-- Directory listings of a well-formed tree are duplicate-free. -/
theorem fsOf_readDir_nodup (t : FsNode) (hwf : wellFormed t = true) :
    ∀ q es, (fsOf t).readDir q = some es → es.Nodup := by
  intro q es h
  revert h
  show (match findNode t q with
    | some (.dir ch) => some ((entryNames ch).map (fun n => q ++ [n]))
    | _ => none) = some es → _
  cases hf : findNode t q with
  | none => intro h; cases h
  | some node =>
    cases node with
    | file => intro h; cases h
    | dir ch =>
      intro h
      cases h
      have hwn := findNode_wf t q (.dir ch) hwf hf
      rw [wellFormed] at hwn
      obtain ⟨h1, _⟩ := Bool.and_eq_true_iff.mp hwn
      have hnames : (entryNames ch).Nodup := of_decide_eq_true h1
      refine hnames.map ?_
      intro a b hab
      have := List.append_cancel_left hab
      exact List.head_eq_of_cons_eq this

/-- Claim C10: over every well-formed tree (distinct sibling names, so each
directory is reachable by exactly one path), the repository list returned by
`locate` contains no duplicates. -/
theorem locateTree_nodup (t : FsNode) (root : FsPath) (d : Nat)
    (hwf : wellFormed t = true) : (locateTree t root d).Nodup := by
  have h := locate_fsOf_eq_locateTree t root d
  rw [locate] at h
  exact locateRecursive_nodup (fsOf t) (fsOf_shape t) (fsOf_readDir_nodup t hwf)
    (d + 1) root _ h

/-- Witness for C10 on the mock tree at depth 3. -/
theorem locateTree_nodup_witness :
    wellFormed mockTree = true ∧ (locateTree mockTree ["root"] 3).Nodup :=
  ⟨by decide, locateTree_nodup mockTree ["root"] 3 (by decide)⟩

/-- A valid engine commit has a representable timestamp. -/
theorem validEngineCommit_fromTimestamp (c : EngineCommit) (h : validEngineCommit c = true) :
    fromTimestamp c.seconds = some c.seconds := by
  rw [validEngineCommit] at h
  obtain ⟨_, h2⟩ := Bool.and_eq_true_iff.mp h
  obtain ⟨h3, h4⟩ := Bool.and_eq_true_iff.mp h2
  rw [fromTimestamp, if_pos ⟨of_decide_eq_true h3, of_decide_eq_true h4⟩]

/-- A valid engine commit survives `CommitHash::new`. -/
theorem validEngineCommit_mkCommit (c : EngineCommit) (h : validEngineCommit c = true) :
    ∃ cc, mkCommit c c.seconds = some cc := by
  rw [validEngineCommit] at h
  obtain ⟨h1, _⟩ := Bool.and_eq_true_iff.mp h
  have h1' := of_decide_eq_true h1
  rw [mkCommit, commitHashNew, if_neg (by omega)]
  exact ⟨_, rfl⟩

/-- On a newest-first walk of valid commits, the early-stopping loop computes
exactly the closed-window filter of the whole sequence. -/
theorem getCommits_eq_filter (commits : List EngineCommit) (since untl : Int)
    (hval : ∀ c ∈ commits, validEngineCommit c = true)
    (hsorted : commits.Pairwise (fun a b => b.seconds ≤ a.seconds)) :
    getCommits (commits.map some) since untl =
      .ok ((commits.filter (inWindow since untl)).filterMap (fun c => mkCommit c c.seconds)) := by
  induction commits with
  | nil => rfl
  | cons c rest ih =>
    have hvc := hval c (List.mem_cons_self c rest)
    have hvr : ∀ b ∈ rest, validEngineCommit b = true :=
      fun b hb => hval b (List.mem_cons_of_mem c hb)
    have ihr := ih hvr hsorted.tail
    simp only [List.map_cons]
    simp only [getCommits, validEngineCommit_fromTimestamp c hvc]
    by_cases hold : c.seconds < since
    · rw [if_pos hold]
      have hcw : inWindow since untl c = false := by
        rw [inWindow]
        have : ¬since ≤ c.seconds := by omega
        simp [this]
      have hrw : rest.filter (inWindow since untl) = [] := by
        rw [List.filter_eq_nil_iff]
        intro b hb
        have hbs : b.seconds ≤ c.seconds := (List.pairwise_cons.mp hsorted).1 b hb
        rw [inWindow]
        have : ¬since ≤ b.seconds := by omega
        simp [this]
      rw [List.filter_cons, hcw, if_neg (by simp), hrw]
      rfl
    · rw [if_neg hold]
      by_cases hnew : c.seconds ≤ untl
      · rw [if_pos hnew]
        obtain ⟨cc, hcc⟩ := validEngineCommit_mkCommit c hvc
        rw [hcc, ihr]
        have hcw : inWindow since untl c = true := by
          rw [inWindow]
          have : since ≤ c.seconds := by omega
          simp [this, hnew]
        rw [List.filter_cons, hcw, if_pos rfl, List.filterMap_cons, hcc]
      · rw [if_neg hnew, ihr]
        have hcw : inWindow since untl c = false := by
          rw [inWindow]
          simp [hnew]
        rw [List.filter_cons, hcw, if_neg (by simp)]

/-- The no-early-stop reference walk also computes the closed-window filter, with
no ordering assumption. -/
theorem getCommitsFullScan_eq_filter (commits : List EngineCommit) (since untl : Int)
    (hval : ∀ c ∈ commits, validEngineCommit c = true) :
    getCommitsFullScan (commits.map some) since untl =
      .ok ((commits.filter (inWindow since untl)).filterMap (fun c => mkCommit c c.seconds)) := by
  induction commits with
  | nil => rfl
  | cons c rest ih =>
    have hvc := hval c (List.mem_cons_self c rest)
    have ihr := ih (fun b hb => hval b (List.mem_cons_of_mem c hb))
    simp only [List.map_cons]
    simp only [getCommitsFullScan, validEngineCommit_fromTimestamp c hvc]
    by_cases hw : since ≤ c.seconds ∧ c.seconds ≤ untl
    · rw [if_pos hw]
      obtain ⟨cc, hcc⟩ := validEngineCommit_mkCommit c hvc
      rw [hcc, ihr]
      have hcw : inWindow since untl c = true := by
        rw [inWindow]
        simp [hw.1, hw.2]
      rw [List.filter_cons, hcw, if_pos rfl, List.filterMap_cons, hcc]
    · rw [if_neg hw]
      rw [ihr]
      have hcw : inWindow since untl c = false := by
        rw [inWindow]
        rcases Decidable.not_and_iff_or_not.mp hw with h | h <;> simp [h]
      rw [List.filter_cons, hcw, if_neg (by simp)]

/-- Claim C5: on a valid repository walked newest-first (timestamps monotonically
non-increasing, every item yielded cleanly), `get_commits` returns `Ok` with
exactly the commits whose date lies in the closed window `[since, until]`, and
`Ok([])` — never an error — when no commit qualifies. -/
theorem getCommits_window (commits : List EngineCommit) (since untl : Int)
    (hval : ∀ c ∈ commits, validEngineCommit c = true)
    (hsorted : commits.Pairwise (fun a b => b.seconds ≤ a.seconds)) :
    getCommits (commits.map some) since untl =
      .ok ((commits.filter (inWindow since untl)).filterMap (fun c => mkCommit c c.seconds)) ∧
    (commits.filter (inWindow since untl) = [] →
      getCommits (commits.map some) since untl = .ok []) := by
  have h := getCommits_eq_filter commits since untl hval hsorted
  exact ⟨h, fun hf => by rw [h, hf]; rfl⟩

/-- Witness for C5: of the two sample commits (seconds 100 and 50) only the
first lies in the window `[60, 200]`. -/
theorem getCommits_window_witness :
    getCommits (sampleCommits.map some) 60 200 =
      .ok ((sampleCommits.filter (inWindow 60 200)).filterMap (fun c => mkCommit c c.seconds)) :=
  (getCommits_window sampleCommits 60 200 (by decide) (by decide)).1

/-- Claim C6: for a newest-first (monotonically non-increasing) sequence of
cleanly yielded commits, the early-stopping loop of `get_commits` returns the
same result as the full scan that filters the entire sequence by the closed
window — the early stop is an optimization, not a correctness filter. -/
theorem getCommits_early_stop_equiv (commits : List EngineCommit) (since untl : Int)
    (hval : ∀ c ∈ commits, validEngineCommit c = true)
    (hsorted : commits.Pairwise (fun a b => b.seconds ≤ a.seconds)) :
    getCommits (commits.map some) since untl =
      getCommitsFullScan (commits.map some) since untl := by
  rw [getCommits_eq_filter commits since untl hval hsorted,
    getCommitsFullScan_eq_filter commits since untl hval]

/-- Witness for C6 on the sample commits and the window `[60, 200]`. -/
theorem getCommits_early_stop_equiv_witness :
    getCommits (sampleCommits.map some) 60 200 =
      getCommitsFullScan (sampleCommits.map some) 60 200 :=
  getCommits_early_stop_equiv sampleCommits 60 200 (by decide) (by decide)

/-- Dropping a false-at-the-head predicate is the identity. -/
theorem dropWhile_eq_self_of_head (p : Char → Bool) (l : List Char)
    (h : ∀ c, l.head? = some c → p c = false) : l.dropWhile p = l := by
  cases l with
  | nil => rfl
  | cons a t =>
    rw [List.dropWhile_cons, h a rfl]
    simp

/-- Right-trimming keeps a list whose last character is not whitespace. -/
theorem revDrop_eq_self (l : List Char)
    (h : ∀ c, l.getLast? = some c → isWsp c = false) :
    (l.reverse.dropWhile isWsp).reverse = l := by
  have hh : ∀ c, l.reverse.head? = some c → isWsp c = false := by
    intro c hc
    rw [List.head?_reverse] at hc
    exact h c hc
  rw [dropWhile_eq_self_of_head isWsp l.reverse hh, List.reverse_reverse]

/-- Trimming keeps a list with no whitespace at either edge. -/
theorem trimList_eq_self (l : List Char)
    (h1 : ∀ c, l.head? = some c → isWsp c = false)
    (h2 : ∀ c, l.getLast? = some c → isWsp c = false) :
    trimList l = l := by
  rw [trimList, dropWhile_eq_self_of_head isWsp l h1]
  exact revDrop_eq_self l h2

/-- Trimming a whitespace-free word followed by one space yields the word. -/
theorem trimList_append_space (l : List Char)
    (h1 : ∀ c, l.head? = some c → isWsp c = false)
    (h2 : ∀ c, l.getLast? = some c → isWsp c = false) :
    trimList (l ++ [' ']) = l := by
  cases l with
  | nil => rfl
  | cons a t =>
    rw [trimList]
    have hh : ∀ c, ((a :: t) ++ [' ']).head? = some c → isWsp c = false := by
      intro c hc
      rw [List.cons_append] at hc
      cases hc
      exact h1 a rfl
    rw [dropWhile_eq_self_of_head isWsp _ hh, List.reverse_concat', List.dropWhile_cons]
    rw [show isWsp ' ' = true from by decide]
    simp only [if_pos]
    have hr : ∀ c, (a :: t).reverse.head? = some c → isWsp c = false := by
      intro c hc
      rw [List.head?_reverse] at hc
      exact h2 c hc
    rw [dropWhile_eq_self_of_head isWsp _ hr, List.reverse_reverse]

/-- Characters allowed by an `Option.all` whitespace check are not whitespace. -/
theorem option_all_not_wsp (o : Option Char) (h : o.all (fun c => !isWsp c) = true) :
    ∀ c, o = some c → isWsp c = false := by
  intro c hc
  subst hc
  simpa using h

/-- Formatting rule of the author string at character-list level: provided the
name carries no whitespace at its edges (which `trim` would strip), the result
is empty for two empty fields, the bare name for an empty email, the
angle-bracketed email for an empty name, and name-space-bracketed-email
otherwise. -/
theorem authorStringL_spec (nameRaw emailRaw : List Char)
    (h : noEdgeWsp nameRaw = true) :
    authorStringL nameRaw emailRaw =
      if nameRaw.isEmpty then
        (if emailRaw.isEmpty then [] else ('<' :: emailRaw) ++ ['>'])
      else if emailRaw.isEmpty then nameRaw
      else nameRaw ++ ' ' :: (('<' :: emailRaw) ++ ['>']) := by
  rw [noEdgeWsp] at h
  obtain ⟨hh, hl⟩ := Bool.and_eq_true_iff.mp h
  have h1 := option_all_not_wsp _ hh
  have h2 := option_all_not_wsp _ hl
  cases nameRaw with
  | nil =>
    cases emailRaw with
    | nil => rfl
    | cons e es =>
      show trimList (' ' :: (('<' :: e :: es) ++ ['>'])) = ('<' :: e :: es) ++ ['>']
      rw [trimList, List.dropWhile_cons, show isWsp ' ' = true from by decide]
      simp only [if_pos]
      have hhd : ∀ c, (('<' :: e :: es) ++ ['>']).head? = some c → isWsp c = false := by
        intro c hc
        rw [List.cons_append] at hc
        cases hc
        decide
      rw [dropWhile_eq_self_of_head isWsp _ hhd]
      apply revDrop_eq_self
      intro c hc
      rw [List.getLast?_concat] at hc
      cases hc
      decide
  | cons a t =>
    cases emailRaw with
    | nil =>
      show trimList ((a :: t) ++ [' ']) = a :: t
      exact trimList_append_space (a :: t) h1 h2
    | cons e es =>
      show trimList ((a :: t) ++ ' ' :: (('<' :: e :: es) ++ ['>'])) =
        (a :: t) ++ ' ' :: (('<' :: e :: es) ++ ['>'])
      apply trimList_eq_self
      · intro c hc
        rw [List.cons_append] at hc
        cases hc
        exact h1 a rfl
      · intro c hc
        rw [List.getLast?_append_of_ne_nil (a :: t) (by simp)] at hc
        rw [show (' ' :: (('<' :: e :: es) ++ ['>'])) = (' ' :: '<' :: e :: es) ++ ['>'] from rfl,
          List.getLast?_concat] at hc
        cases hc
        decide

/-- Claim C9 (amended): the formatting rule — empty for two empty fields, the
bare name for an empty email, the bracketed email for an empty name, and
`"Name <email>"` otherwise — holds for every pair whose name has no whitespace
at its edges; the final `trim` strips such whitespace (see the counterexample),
which is the only deviation. -/
theorem commitAuthorToString_formatting (name email : String)
    (h : noEdgeWsp name.toList = true) :
    commitAuthorToString { name := name, email := email } =
      if name.toList.isEmpty then
        (if email.toList.isEmpty then "" else ("<" ++ email ++ ">"))
      else if email.toList.isEmpty then name
      else (name ++ " <" ++ email ++ ">") := by
  rw [commitAuthorToString]
  show (authorStringL name.toList email.toList).asString = _
  rw [authorStringL_spec name.toList email.toList h]
  by_cases hn : name.toList.isEmpty
  · rw [if_pos hn, if_pos hn]
    by_cases he : email.toList.isEmpty
    · rw [if_pos he, if_pos he]
      rfl
    · rw [if_neg he, if_neg he]
      rfl
  · rw [if_neg hn, if_neg hn]
    by_cases he : email.toList.isEmpty
    · rw [if_pos he, if_pos he]
      rfl
    · rw [if_neg he, if_neg he]
      show (name.toList ++ ' ' :: (('<' :: email.toList) ++ ['>'])).asString
        = ((name ++ " <" ++ email ++ ">").toList).asString
      apply congrArg List.asString
      show name.toList ++ ' ' :: (('<' :: email.toList) ++ ['>'])
        = ((name.toList ++ [' ', '<']) ++ email.toList) ++ ['>']
      simp [List.append_assoc]

/-- Witness for C9 (amended) at the claim's fourth instance. -/
theorem commitAuthorToString_formatting_witness :
    commitAuthorToString { name := "A", email := "e@x" } = "A <e@x>" := by
  have h := commitAuthorToString_formatting "A" "e@x" (by decide)
  simpa using h
